import Mathlib

/-
  Shallow embedding of the moysklad-sale-monitor script (src/main.py).

  JSON-like values are modelled by the inductive type `JValue`; Python dicts
  are association lists with distinct keys (the shape produced by Python's
  json parser), looked up with `List.lookup`.  Numbers are modelled by `ℚ`
  (Python ints and floats; every price the script produces is a rounded
  decimal, which `ℚ` represents exactly).  Python truthiness, `or`-chains,
  `str`, `strip`, `lower` and `float` are modelled explicitly below; the
  container cases of `str` (Python would print a full repr) are abbreviated
  to a fixed non-empty placeholder, which is all the script ever observes of
  them (emptiness after trimming).
-/

namespace Moysklad

inductive JValue where
  | null : JValue
  | bool : Bool → JValue
  | num : ℚ → JValue
  | str : String → JValue
  | arr : List JValue → JValue
  | obj : List (String × JValue) → JValue

abbrev PyDict := List (String × JValue)

def isDict : JValue → Bool
  | .obj _ => true
  | _ => false

def isArr : JValue → Bool
  | .arr _ => true
  | _ => false

/-- Python truthiness of a JSON value. -/
def truthy : JValue → Bool
  | .null => false
  | .bool b => b
  | .num q => decide (q ≠ 0)
  | .str s => !s.isEmpty
  | .arr l => !l.isEmpty
  | .obj l => !l.isEmpty

/-- Truthiness of `d.get(k)` style results (`none` is Python `None`). -/
def truthyO : Option JValue → Bool
  | none => false
  | some v => truthy v

/-- Python `a or b` on possibly-missing values: the left operand if truthy,
else the right operand. -/
def pyOrO (a b : Option JValue) : Option JValue :=
  if truthyO a then a else b

/-- is_productish_dict (src/main.py:95): a dict with a truthy name-like and a
truthy id-like field. -/
def is_productish_dict : JValue → Bool
  | .obj fields =>
      let name := pyOrO (List.lookup "name" fields) (List.lookup "title" fields)
      let pid := pyOrO (List.lookup "id" fields)
        (pyOrO (List.lookup "uuid" fields) (List.lookup "product_id" fields))
      truthyO name && truthyO pid
  | _ => false

/-- The conventional container keys probed by extract_rows, in source order. -/
def convKeys : List String := ["rows", "products", "items", "data", "result"]

/-- The conventional-key probe of extract_rows (src/main.py:119-126): the
first key whose value is a non-empty list with a dict first element wins; the
source then branches on a productish sample but returns the same filtered
list in both branches. -/
def firstConvHit : List String → PyDict → Option (List JValue)
  | [], _ => none
  | k :: ks, fields =>
      match List.lookup k fields with
      | some (.arr (x :: xs)) =>
          if isDict x then
            if ((x :: xs).take 5).any is_productish_dict then
              some ((x :: xs).filter isDict)
            else
              some ((x :: xs).filter isDict)
          else firstConvHit ks fields
      | _ => firstConvHit ks fields

/-- Score of a candidate list (src/main.py:133-134): productish count among
the first 10 elements. -/
def prodScore (v : List JValue) : Nat :=
  ((v.take 10).filter is_productish_dict).length

/-- The best/best_score fold of extract_rows's fallback scan
(src/main.py:129-137), over the dict's entries in order. -/
def bestFold : List (String × JValue) → List JValue × Nat → List JValue × Nat
  | [], acc => acc
  | (_, v) :: rest, (best, bestScore) =>
      match v with
      | .arr (x :: xs) =>
          if isDict x then
            if bestScore < prodScore (x :: xs) then
              bestFold rest (x :: xs, prodScore (x :: xs))
            else bestFold rest (best, bestScore)
          else bestFold rest (best, bestScore)
      | _ => bestFold rest (best, bestScore)

/-- extract_rows (src/main.py:104-138). -/
def extract_rows : JValue → List JValue
  | .arr xs => xs.filter isDict
  | .obj fields =>
      match firstConvHit convKeys fields with
      | some r => r
      | none =>
          let bs := bestFold fields ([], 0)
          if bs.1.isEmpty then [] else bs.1.filter isDict
  | _ => []

/-- The candidate lists of the fallback scan: values that are non-empty lists
whose first element is a dict, in entry order. -/
def candidatesOf (fields : PyDict) : List (List JValue) :=
  fields.filterMap fun kv =>
    match kv.2 with
    | .arr (x :: xs) => if isDict x then some (x :: xs) else none
    | _ => none

/-- Highest candidate score of the fallback scan. -/
def maxScoreOf (cands : List (List JValue)) : Nat :=
  (cands.map prodScore).foldr max 0

/-- Modelled from the claim wording for the fallback scan: return the
elements of the highest-scoring candidate (first among ties), or an empty
sequence if no candidate exists.  No positive-score requirement. -/
def scanClaim (fields : PyDict) : List JValue :=
  let cands := candidatesOf fields
  match cands.find? (fun c => maxScoreOf cands ≤ prodScore c) with
  | some c => c.filter isDict
  | none => []

/-- The Response Extractor as the claim words it (rule 3 without a
positive-score requirement). -/
def extractRecordsClaim : JValue → List JValue
  | .arr xs => xs.filter isDict
  | .obj fields =>
      match firstConvHit convKeys fields with
      | some r => r
      | none => scanClaim fields
  | _ => []

/-- Amended fallback scan: the highest-scoring candidate (first among ties)
is returned only when its score is strictly positive. -/
def scanAmended (fields : PyDict) : List JValue :=
  let cands := candidatesOf fields
  if maxScoreOf cands = 0 then []
  else
    match cands.find? (fun c => maxScoreOf cands ≤ prodScore c) with
    | some c => c.filter isDict
    | none => []

/-- The Response Extractor as amended: rule 3 requires a strictly positive
score. -/
def extractRecordsAmended : JValue → List JValue
  | .arr xs => xs.filter isDict
  | .obj fields =>
      match firstConvHit convKeys fields with
      | some r => r
      | none => scanAmended fields
  | _ => []

/-- Concrete input separating extract_rows from the claim wording: one
unconventional key holding a single dict with neither name nor id. -/
def jweird : JValue := .obj [("weird", .arr [.obj [("x", .num 1)]])]

/-- Whitespace stripped by Python str.strip (the ASCII part: space, tab,
newline, carriage return, vertical tab, form feed; written on code points
for arithmetic-friendly proofs). -/
def isPySpace (c : Char) : Bool :=
  decide (c.toNat = 32 ∨ c.toNat = 9 ∨ c.toNat = 10 ∨ c.toNat = 13 ∨
    c.toNat = 11 ∨ c.toNat = 12)

def stripChars (l : List Char) : List Char :=
  ((l.dropWhile isPySpace).reverse.dropWhile isPySpace).reverse

/-- Python str.strip. -/
def pyStrip (s : String) : String :=
  String.mk (stripChars s.data)

/-- Python str.lower, restricted to the alphabets this script handles
(ASCII A-Z at 65-90, Cyrillic А-Я at 1040-1071, Ё at 1025; lower-casing
adds 32 within the first two ranges and maps Ё to ё at 1105). -/
def pyLowerChar (c : Char) : Char :=
  if 65 ≤ c.toNat ∧ c.toNat ≤ 90 then Char.ofNat (c.toNat + 32)
  else if 1040 ≤ c.toNat ∧ c.toNat ≤ 1071 then Char.ofNat (c.toNat + 32)
  else if c.toNat = 1025 then Char.ofNat 1105
  else c

def pyLower (s : String) : String :=
  String.mk (s.data.map pyLowerChar)

/-- The translation table of _normalize_confusables (src/main.py:83-92):
Latin letters visually identical to Cyrillic ones, both cases, mapped to
their Cyrillic counterparts. -/
def confTable : List (Char × Char) :=
  [('a', 'а'), ('c', 'с'), ('e', 'е'), ('o', 'о'), ('p', 'р'), ('x', 'х'),
   ('y', 'у'), ('k', 'к'), ('m', 'м'), ('t', 'т'), ('b', 'в'),
   ('A', 'А'), ('C', 'С'), ('E', 'Е'), ('O', 'О'), ('P', 'Р'), ('X', 'Х'),
   ('Y', 'У'), ('K', 'К'), ('M', 'М'), ('T', 'Т'), ('B', 'В')]

/-- One character through the confusables table (characters outside the
table are left unchanged, as str.translate does). -/
def confChar (c : Char) : Char :=
  (confTable.lookup c).getD c

def _normalize_confusables (s : String) : String :=
  String.mk (s.data.map confChar)

/-- Python substring containment (the `in` operator) on character lists. -/
def containsSub (hay needle : List Char) : Bool :=
  needle.isPrefixOf hay ||
    match hay with
    | [] => false
    | _ :: rest => containsSub rest needle

/-- Decimal repr of an integer, as Python str would print it. -/
def intRepr (n : ℤ) : String :=
  if n < 0 then "-" ++ Nat.repr n.natAbs else Nat.repr n.natAbs

/-- Python str on a JSON value.  Containers would print their full repr;
only its non-emptiness is ever observed by the script, so it is abbreviated
to a fixed placeholder.  Non-integral numbers (which Python would print in
float notation) are printed as a fraction; the script only ever stringifies
id-like fields, and only emptiness after trimming matters. -/
def pyStr : JValue → String
  | .null => "None"
  | .bool true => "True"
  | .bool false => "False"
  | .str s => s
  | .num q => if q.den = 1 then intRepr q.num else intRepr q.num ++ "/" ++ Nat.repr q.den
  | .arr _ => "[...]"
  | .obj _ => "\x7b...\x7d"

/-- Value of a digit list read in base 10. -/
def digitsVal (l : List Char) : Nat :=
  l.foldl (fun n c => n * 10 + (c.toNat - 48)) 0

/-- Python float(str), modelled for plain decimal literals with an optional
sign and optional fractional part (exponents, inf/nan and underscore
separators are not modelled). -/
def strToRat (s : String) : Option ℚ :=
  let cs := stripChars s.data
  let signed : Bool × List Char :=
    match cs with
    | '-' :: rest => (true, rest)
    | '+' :: rest => (false, rest)
    | _ => (false, cs)
  let body := signed.2
  let mag : Option ℚ :=
    match body.splitOn '.' with
    | [a] =>
        if a ≠ [] && a.all Char.isDigit then some ((digitsVal a : ℕ) : ℚ) else none
    | [a, b] =>
        if (a ++ b) ≠ [] && (a ++ b).all Char.isDigit then
          some (mkRat ((digitsVal a * 10 ^ b.length + digitsVal b : ℕ) : ℤ) (10 ^ b.length))
        else none
    | _ => none
  mag.map fun q => if signed.1 then -q else q

/-- Python float() applied to a JSON value (bool is an int subclass in
Python, so it converts; strings are parsed; anything else raises, which the
source catches and turns into None). -/
def pyFloat : JValue → Option ℚ
  | .num q => some q
  | .bool b => some (if b then 1 else 0)
  | .str s => strToRat s
  | _ => none

/-- Floor of a rational (kernel-computable). -/
def ratFloor (q : ℚ) : ℤ :=
  Int.ediv q.num (q.den : ℤ)

/-- Round half to even on a rational, as Python round does on exact
values.  The fractional part r = x - floor x is compared with 1/2 on
numerators: r < 1/2 iff 2*(x.num - floor*den) < den. -/
def roundHalfEven (x : ℚ) : ℤ :=
  let n := ratFloor x
  let r2 := 2 * (x.num - n * (x.den : ℤ))
  if r2 < (x.den : ℤ) then n
  else if (x.den : ℤ) < r2 then n + 1
  else if n % 2 = 0 then n else n + 1

/-- Exact division of a rational by 100, in a kernel-reducible form
(mkRat normalizes; the lemma divBy100_eq below shows it equals q / 100). -/
def divBy100 (q : ℚ) : ℚ :=
  mkRat q.num (q.den * 100)

/-- Exact multiplication of a rational by 100, in a kernel-reducible form
(the lemma ratMul100_eq below shows it equals q * 100). -/
def ratMul100 (q : ℚ) : ℚ :=
  mkRat (q.num * 100) q.den

/-- Python round(x, 2): round half to even at the second decimal. -/
def round2 (x : ℚ) : ℚ :=
  mkRat (roundHalfEven (ratMul100 x)) 100

/-- The secondary price-field aliases probed by parse_price_to_rub, in
source order. -/
def priceAliases : List String :=
  ["salePrice", "minPrice", "retail_price", "retailPrice", "price_value", "priceValue"]

/-- The candidate list built by parse_price_to_rub (src/main.py:142-148):
the "price" field first when present, then each present alias. -/
def priceCandidates (p : PyDict) : List JValue :=
  (match List.lookup "price" p with
   | some v => [v]
   | none => []) ++ priceAliases.filterMap fun k => List.lookup k p

/-- The resolution loop of parse_price_to_rub (src/main.py:150-157): the
first candidate that is a dict containing a "value" key (taking that
sub-value, whatever it is) or that is directly numeric stops the search. -/
def firstResolvedValue : List JValue → Option JValue
  | [] => none
  | c :: rest =>
      match c with
      | .obj fields =>
          match List.lookup "value" fields with
          | some v => some v
          | none => firstResolvedValue rest
      | .num _ => some c
      | .bool _ => some c
      | _ => firstResolvedValue rest

/-- parse_price_to_rub (src/main.py:141-170). -/
def parse_price_to_rub (p : PyDict) : Option ℚ :=
  match firstResolvedValue (priceCandidates p) with
  | none => none
  | some v =>
      match pyFloat v with
      | none => none
      | some q => if 1000 ≤ q then round2 (divBy100 q) else round2 q

/-- Modelled from the claim wording: the unit heuristic keyed on the
magnitude (absolute value, written via the numerator sign) of the resolved
number. -/
def priceClaimMagnitude (p : PyDict) : Option ℚ :=
  match firstResolvedValue (priceCandidates p) with
  | none => none
  | some v =>
      match pyFloat v with
      | none => none
      | some q =>
          if 1000 ≤ (if q.num < 0 then -q else q) then round2 (divBy100 q)
          else round2 q

/-- Concrete entry separating parse_price_to_rub from the claim wording:
a large negative price is not divided by the source. -/
def pneg : PyDict := [("price", .num (-5000))]

/-- A canonical product record (src/main.py:178). -/
structure ProductRecord where
  id : String
  name : String
  price_rub : Option ℚ
  category : String
deriving DecidableEq

/-- normalize_product (src/main.py:173-178): id and name from Python
or-chains over the aliases (first truthy value, else the empty-string
default), stringified and stripped; fails when either is empty. -/
def normalize_product (p : PyDict) (category_name : String) : Option ProductRecord :=
  let pid := pyStrip (pyStr ((pyOrO (List.lookup "id" p)
    (pyOrO (List.lookup "uuid" p)
      (pyOrO (List.lookup "product_id" p) (some (.str ""))))).getD (.str "")))
  let name := pyStrip (pyStr ((pyOrO (List.lookup "name" p)
    (pyOrO (List.lookup "title" p) (some (.str "")))).getD (.str "")))
  if pid = "" || name = "" then none
  else some ⟨pid, name, parse_price_to_rub p, category_name⟩

/-- Modelled from the claim wording: resolve from the first PRESENT alias
(regardless of truthiness), stringified and stripped; empty when no alias is
present. -/
def resolveFirstPresent (p : PyDict) (aliases : List String) : String :=
  match aliases.findSome? fun k => List.lookup k p with
  | some v => pyStrip (pyStr v)
  | none => ""

/-- The Record Normalizer as the claim words it (first-present alias
resolution). -/
def normalizeClaim (p : PyDict) (category_name : String) : Option ProductRecord :=
  let pid := resolveFirstPresent p ["id", "uuid", "product_id"]
  let name := resolveFirstPresent p ["name", "title"]
  if pid = "" || name = "" then none
  else some ⟨pid, name, parse_price_to_rub p, category_name⟩

/-- Amended resolution: the first alias whose value is present and truthy
(non-null, non-false, non-zero, non-empty), stringified and stripped. -/
def resolveFirstTruthy (p : PyDict) (aliases : List String) : String :=
  match aliases.findSome? (fun k =>
      match List.lookup k p with
      | some v => if truthy v then some v else none
      | none => none) with
  | some v => pyStrip (pyStr v)
  | none => ""

/-- The Record Normalizer as amended (first-truthy alias resolution). -/
def normalizeAmended (p : PyDict) (category_name : String) : Option ProductRecord :=
  let pid := resolveFirstTruthy p ["id", "uuid", "product_id"]
  let name := resolveFirstTruthy p ["name", "title"]
  if pid = "" || name = "" then none
  else some ⟨pid, name, parse_price_to_rub p, category_name⟩

/-- Concrete entry separating normalize_product from the claim wording: the
id alias is present but empty, and the or-chain falls through to uuid. -/
def pfall : PyDict := [("id", .str ""), ("uuid", .str "u1"), ("name", .str "A")]

/-- The two fixed keywords (src/main.py:23-24). -/
def kw1 : String := "распродажа"

def kw2 : String := "табак"

/-- find_sale_tobacco_categories (src/main.py:215-222): keep the categories
whose stripped name, after confusables substitution and lower-casing,
contains both keywords. -/
def find_sale_tobacco_categories (categories : List PyDict) : List PyDict :=
  categories.filter fun c =>
    let name := pyStrip (pyStr ((List.lookup "name" c).getD (.str "")))
    let normalized := pyLower (_normalize_confusables name)
    containsSub normalized.data kw1.data && containsSub normalized.data kw2.data

/-- The Text Matcher as the claim words it: both keywords occur as
substrings of the label after confusables substitution and lower-casing
(no stripping). -/
def textMatches (label : String) : Bool :=
  let t := pyLower (_normalize_confusables label)
  containsSub t.data kw1.data && containsSub t.data kw2.data

/-- The raw name of a category entry, as the source reads it
(str(c.get("name", ""))). -/
def categoryName (c : PyDict) : String :=
  pyStr ((List.lookup "name" c).getD (.str ""))

/-- Python "\n".join. -/
def joinNL : List String → String
  | [] => ""
  | [a] => a
  | a :: b :: t => a ++ "\n" ++ joinNL (b :: t)

/-- The accumulation loop of chunk_lines (src/main.py:188-199), kept as the
list of line groups; the source joins each group with newlines as it is
flushed.  The running length counts len(line) + 1 per line, exactly as the
source does. -/
def chunkAux (maxChars : Nat) : List String → List String → Nat → List (List String)
  | [], cur, _ => if cur.isEmpty then [] else [cur]
  | line :: rest, cur, curLen =>
      let addLen := line.length + 1
      if cur ≠ [] ∧ maxChars < curLen + addLen then
        cur :: chunkAux maxChars rest [line] addLen
      else
        chunkAux maxChars rest (cur ++ [line]) (curLen + addLen)

/-- The line groups chunk_lines builds at the default budget of 3500. -/
def chunkParts (lines : List String) : List (List String) :=
  chunkAux 3500 lines [] 0

/-- chunk_lines (src/main.py:188-199) at the default budget. -/
def chunk_lines (lines : List String) : List String :=
  (chunkParts lines).map joinNL

/-- The running length the source maintains for a group: len + 1 per line. -/
def weightL (c : List String) : Nat :=
  (c.map fun s => s.length + 1).sum

/-- A single input line one character over the budget. -/
def bigLine : String := String.mk (List.replicate 3501 'a')

/-- The record stored per product in the persisted snapshot
(src/main.py:374). -/
structure SnapRec where
  name : String
  price_rub : Option ℚ
  category : String
deriving DecidableEq

/-- A snapshot: insertion-ordered id-to-record mapping (a Python dict). -/
abbrev Snapshot := List (String × SnapRec)

/-- Code-point lexicographic order on character lists (Python string
comparison). -/
def strLeB : List Char → List Char → Bool
  | [], _ => true
  | _ :: _, [] => false
  | c :: cs, d :: ds =>
      if c.toNat < d.toNat then true
      else if d.toNat < c.toNat then false
      else strLeB cs ds

/-- The sort key of the diff output (x["name"].lower()). -/
def nameKey (s : String) : List Char :=
  (pyLower s).data

/-- Ordering of added records: case-insensitive by name. -/
def recLe (a b : SnapRec) : Bool :=
  strLeB (nameKey a.name) (nameKey b.name)

/-- Ordering of changed pairs: case-insensitive by the new record's name. -/
def pairLe (a b : SnapRec × SnapRec) : Bool :=
  strLeB (nameKey a.2.name) (nameKey b.2.name)

/-- The added list built by main's diff loop (src/main.py:400-402), in
current-snapshot iteration order. -/
def diffAdded (prev current : Snapshot) : List SnapRec :=
  current.filterMap fun pc =>
    if (List.lookup pc.1 prev).isSome then none else some pc.2

/-- The changed list built by main's diff loop (src/main.py:403-406), in
current-snapshot iteration order. -/
def diffChanged (prev current : Snapshot) : List (SnapRec × SnapRec) :=
  current.filterMap fun pc =>
    match List.lookup pc.1 prev with
    | none => none
    | some old => if old.price_rub ≠ pc.2.price_rub then some (old, pc.2) else none

/-- The Snapshot Differ of main (src/main.py:397-414): the diff loop
followed by the case-insensitive sorts (which the source performs inside
the `if added or changed` guard; on the empty diff both lists are already
empty). -/
def diffMain (prev current : Snapshot) : List SnapRec × List (SnapRec × SnapRec) :=
  let added := diffAdded prev current
  let changed := diffChanged prev current
  if added.isEmpty ∧ changed.isEmpty then (added, changed)
  else (added.mergeSort recLe, changed.mergeSort pairLe)

/-- The extracted rows of the page fetched at a given offset. -/
def rowsAt (fetch : Nat → JValue) (offset : Nat) : List JValue :=
  extract_rows (fetch offset)

/-- The loop exit condition of iter_products at a given offset: extraction
empty, or a short page. -/
def stopsAtOffset (fetch : Nat → JValue) (offset : Nat) : Bool :=
  (rowsAt fetch offset).isEmpty || decide ((rowsAt fetch offset).length < 100)

/-- The while-loop of iter_products (src/main.py:249-280), page size 100,
with explicit fuel: `none` means the loop has not terminated within `fuel`
iterations.  The fetch collaborator is indexed by offset; the debug
bookkeeping and inter-page sleep of the source do not affect the result. -/
def iter_products_fuel (fetch : Nat → JValue) :
    Nat → List JValue → Nat → Option (List JValue)
  | 0, _, _ => none
  | fuel + 1, acc, offset =>
      let rows := rowsAt fetch offset
      if rows.isEmpty then some acc
      else if rows.length < 100 then some (acc ++ rows)
      else iter_products_fuel fetch fuel (acc ++ rows) (offset + 100)

/-- A productish dict used to build concrete pages. -/
def pDict : JValue := .obj [("id", .str "1"), ("name", .str "A")]

/-- A collaborator that always returns exactly a full page with identical
content. -/
def constFullFetch : Nat → JValue :=
  fun _ => .arr (List.replicate 100 pDict)

/-- A collaborator with one short page at offset 0 and nothing after. -/
def oneShortFetch : Nat → JValue :=
  fun offset => if offset = 0 then .arr [pDict] else .arr []

/-- The persisted state (src/main.py:54-56). -/
structure RunState where
  initialized : Bool
  products : Snapshot
  last_heartbeat_date : Option String
deriving DecidableEq

/-- The clock value main reads once (Moscow-local hour, minute and ISO
date). -/
structure NowT where
  hour : Nat
  minute : Nat
  dateIso : String
deriving DecidableEq

/-- is_work_time (src/main.py:284-285). -/
def is_work_time (now : NowT) : Bool :=
  8 ≤ now.hour && now.hour < 18

/-- The heartbeat message (src/main.py:292; text abridged, content does not
matter to any claim). -/
def heartbeatMsg : String := "HEARTBEAT"

/-- The missing-cookie warning (src/main.py:346; text abridged). -/
def cookieWarnMsg : String := "COOKIE_WARN"

/-- The no-matching-categories notification (src/main.py:354; text
abridged). -/
def noCatsMsg : String := "NO_CATEGORIES"

/-- maybe_heartbeat (src/main.py:288-294): returns the possibly-updated
state and the messages sent. -/
def maybe_heartbeat (state : RunState) (now : NowT) : RunState × List String :=
  if now.hour = 8 ∧ now.minute < 30 then
    if state.last_heartbeat_date ≠ some now.dateIso then
      ({ state with last_heartbeat_date := some now.dateIso }, [heartbeatMsg])
    else (state, [])
  else (state, [])

/-- The early part of main (src/main.py:335-356), up to and including the
no-matching-categories early exit, over its collaborator inputs (loaded
state, clock, cookie presence, fetched category list).  Returns the saved
state and the messages sent when main returns on one of the two modelled
early paths, and `none` when execution proceeds past them. -/
def mainEarly (state : RunState) (now : NowT) (cookie : Bool)
    (categories : List PyDict) : Option (RunState × List String) :=
  let hb := maybe_heartbeat state now
  if is_work_time now = false then some (hb.1, hb.2)
  else
    let msgs := hb.2 ++ (if cookie then [] else [cookieWarnMsg])
    if (find_sale_tobacco_categories categories).isEmpty then
      some (hb.1, msgs ++ [noCatsMsg])
    else none

/-- Concrete loaded state for the heartbeat counterexample. -/
def st0 : RunState :=
  ⟨true, [("1", ⟨"A", some 10, "C"⟩)], some "2026-10-11"⟩

/-- Concrete clock inside the heartbeat window on a new day. -/
def n0 : NowT := ⟨8, 10, "2026-10-12"⟩

/-- The state main saves on an early-exit path. -/
def savedState (r : Option (RunState × List String)) : Option RunState :=
  r.map Prod.fst

/-- The heartbeat date the heartbeat rule leaves behind: advanced to the
current day exactly when the run happens in the first half-hour of hour 8
on a day not yet marked, untouched otherwise. -/
def expectedHeartbeatDate (state : RunState) (now : NowT) : Option String :=
  if now.hour = 8 ∧ now.minute < 30 ∧ state.last_heartbeat_date ≠ some now.dateIso
  then some now.dateIso else state.last_heartbeat_date

/-- The messages main sends on an early-exit path. -/
def sentMsgs (r : Option (RunState × List String)) : Option (List String) :=
  r.map Prod.snd

/-- One resolution step of the price loop, as the claim words it: a mapping
containing a "value" sub-field resolves to that sub-value; a directly
numeric candidate (Python counts bool as numeric) resolves to itself;
anything else is skipped. -/
def resolveOne : JValue → Option JValue
  | .obj fields => List.lookup "value" fields
  | .num q => some (.num q)
  | .bool b => some (.bool b)
  | _ => none

/-- The Price Normalizer as amended: first resolvable candidate, signed
1000 threshold, rounded to 2 decimal places, absent when nothing
resolves to a number. -/
def priceSpecAmended (p : PyDict) : Option ℚ :=
  ((priceCandidates p).findSome? resolveOne).bind fun v =>
    (pyFloat v).map fun q => if 1000 ≤ q then round2 (divBy100 q) else round2 q

/-- The best/best_score fold restricted to the candidate lists (the entries
bestFold skips contribute nothing). -/
def candFold : List (List JValue) → List JValue × Nat → List JValue × Nat
  | [], acc => acc
  | c :: rest, (b, s) =>
      if s < prodScore c then candFold rest (c, prodScore c)
      else candFold rest (b, s)

/-- A 2000-character line for the chunking witness. -/
def xline : String := String.mk (List.replicate 2000 'x')

/-- Another 2000-character line for the chunking witness. -/
def yline : String := String.mk (List.replicate 2000 'y')

/-
  Theorems.
-/

theorem firstResolvedValue_eq_findSome :
    ∀ l : List JValue, firstResolvedValue l = l.findSome? resolveOne := by
  intro l
  induction l with
  | nil => rfl
  | cons c rest ih =>
      cases c with
      | obj fields =>
          rw [List.findSome?_cons]
          cases h : List.lookup "value" fields with
          | none => simpa [firstResolvedValue, resolveOne, h] using ih
          | some v => simp [firstResolvedValue, resolveOne, h]
      | num q => simp [firstResolvedValue, resolveOne, List.findSome?_cons]
      | bool b => simp [firstResolvedValue, resolveOne, List.findSome?_cons]
      | null => simpa [firstResolvedValue, resolveOne, List.findSome?_cons] using ih
      | str s => simpa [firstResolvedValue, resolveOne, List.findSome?_cons] using ih
      | arr xs => simpa [firstResolvedValue, resolveOne, List.findSome?_cons] using ih

/-- C2 (amended): parse_price_to_rub collects candidates under the fixed
ordered alias list with the primary "price" field first; the first candidate
that is a mapping containing a "value" sub-field, or that is directly
numeric, determines the resolved value; the result divides by 100 exactly
when the signed resolved value is at least 1000 and is taken as-is
otherwise, rounded to 2 decimal places in both branches, and is absent when
no candidate yields a numeric value; the four spec examples hold. -/
theorem parse_price_to_rub_spec :
    (∀ p : PyDict, parse_price_to_rub p = priceSpecAmended p) ∧
    parse_price_to_rub [("price", .num 15000)] = some 150 ∧
    parse_price_to_rub [("price", .obj [("value", .num 9990)])] = some (mkRat 999 10) ∧
    parse_price_to_rub [("price", .num 50)] = some 50 ∧
    parse_price_to_rub [] = none := by
  refine ⟨fun p => ?_, by decide, by decide, by decide, rfl⟩
  rw [parse_price_to_rub, priceSpecAmended, ← firstResolvedValue_eq_findSome]
  cases hr : firstResolvedValue (priceCandidates p) with
  | none => rfl
  | some v =>
      cases hf : pyFloat v with
      | none => simp [hf]
      | some q => simp [hf]; split <;> rfl

/-- C2 counterexample: on the entry with price -5000 the source applies no
unit division (signed comparison against 1000), while the claim's
magnitude-based heuristic divides by 100; the two disagree there. -/
theorem parse_price_magnitude_cex :
    parse_price_to_rub pneg = some (-5000) ∧
    priceClaimMagnitude pneg = some (-50) ∧
    parse_price_to_rub pneg ≠ priceClaimMagnitude pneg := by
  refine ⟨by decide, by decide, by decide⟩

theorem firstConvHit_isDict :
    ∀ (ks : List String) (fields : PyDict) (r : List JValue),
      firstConvHit ks fields = some r → ∀ x ∈ r, isDict x = true := by
  intro ks
  induction ks with
  | nil => intro fields r h; simp [firstConvHit] at h
  | cons k ks ih =>
      intro fields r h
      rw [firstConvHit] at h
      split at h
      · split at h
        · split at h <;>
            (injection h with h; subst h; intro x hx; exact (List.mem_filter.mp hx).2)
        · exact ih fields r h
      · exact ih fields r h

/-- C4 (confirmed): extract_rows is total over arbitrary JSON-like input,
returns the empty sequence on non-sequence non-mapping input and on a
mapping whose conventional key holds an empty sequence, and always returns
a sequence of mappings. -/
theorem extract_rows_total :
    extract_rows .null = [] ∧
    extract_rows (.num 42) = [] ∧
    extract_rows (.str "string") = [] ∧
    extract_rows (.obj [("rows", .arr [])]) = [] ∧
    (∀ j : JValue, isArr j = false → isDict j = false → extract_rows j = []) ∧
    (∀ j : JValue, ∀ x ∈ extract_rows j, isDict x = true) := by
  refine ⟨rfl, rfl, rfl, rfl, fun j h1 h2 => ?_, fun j x hx => ?_⟩
  · cases j <;> simp_all [isArr, isDict, extract_rows]
  · cases j with
    | arr xs => exact (List.mem_filter.mp (by simpa [extract_rows] using hx)).2
    | obj fields =>
        rw [extract_rows] at hx
        cases h : firstConvHit convKeys fields with
        | some r => rw [h] at hx; exact firstConvHit_isDict convKeys fields r h x hx
        | none =>
            rw [h] at hx
            simp only at hx
            split at hx
            · simp at hx
            · exact (List.mem_filter.mp hx).2
    | null => simp [extract_rows] at hx
    | bool b => simp [extract_rows] at hx
    | num q => simp [extract_rows] at hx
    | str s => simp [extract_rows] at hx

/-- C4 witness: the safety theorem applied at the number 42. -/
theorem extract_rows_total_witness : extract_rows (.num 42) = [] :=
  extract_rows_total.2.2.2.2.1 (.num 42) rfl rfl

theorem resolve_eq (p : PyDict) :
    ∀ ks : List String,
      pyStrip (pyStr ((ks.foldr (fun k acc => pyOrO (List.lookup k p) acc)
          (some (.str ""))).getD (.str "")))
        = resolveFirstTruthy p ks := by
  intro ks
  induction ks with
  | nil => rfl
  | cons k ks ih =>
      simp only [List.foldr_cons, resolveFirstTruthy, List.findSome?_cons]
      cases h : List.lookup k p with
      | none =>
          simp only [h, pyOrO, truthyO, Bool.false_eq_true, if_false]
          simpa [resolveFirstTruthy] using ih
      | some v =>
          by_cases ht : truthy v
          · simp [h, ht, pyOrO, truthyO]
          · simp only [h, pyOrO, truthyO, ht, Bool.false_eq_true, if_false]
            simpa [resolveFirstTruthy] using ih

/-- C5 (amended): normalize_product resolves id and name from the first
alias whose value is present and truthy (non-null, non-false, non-zero,
non-empty), stringified and trimmed; it fails exactly when either resolved
string is empty, and on success carries the Price Normalizer output and the
category name verbatim. -/
theorem normalize_product_spec :
    ∀ (p : PyDict) (cat : String), normalize_product p cat = normalizeAmended p cat := by
  intro p cat
  have h1 := resolve_eq p ["id", "uuid", "product_id"]
  have h2 := resolve_eq p ["name", "title"]
  simp only [List.foldr_cons, List.foldr_nil] at h1 h2
  rw [normalize_product, normalizeAmended, h1, h2]

/-- C5 counterexample: on the entry with an empty id field and a uuid
fallback, the source's or-chain skips the empty value and succeeds, while
the claim's first-present resolution takes the empty id and fails. -/
theorem normalize_first_present_cex :
    normalize_product pfall "C" = some ⟨"u1", "A", none, "C"⟩ ∧
    normalizeClaim pfall "C" = none := by
  constructor <;> rfl

/-- C9 (amended): on the no-matching-categories early exit, the saved state
equals the loaded state except that the heartbeat rule may advance the
heartbeat date to the current day (exactly when the run happens in the
first half-hour of hour 8 on a day not yet marked); the initialized flag
and the products snapshot are unchanged, and exactly one
missing-categories notification is sent. -/
theorem mainEarly_no_categories (state : RunState) (now : NowT) (cookie : Bool)
    (categories : List PyDict)
    (hwork : is_work_time now = true)
    (hempty : (find_sale_tobacco_categories categories).isEmpty = true) :
    savedState (mainEarly state now cookie categories) =
      some { state with last_heartbeat_date := expectedHeartbeatDate state now } ∧
    (sentMsgs (mainEarly state now cookie categories)).map
        (fun msgs => msgs.count noCatsMsg) = some 1 := by
  rw [savedState, sentMsgs, mainEarly, maybe_heartbeat, expectedHeartbeatDate]
  rw [hwork, hempty]
  by_cases h1 : now.hour = 8 ∧ now.minute < 30
  · by_cases h2 : state.last_heartbeat_date ≠ some now.dateIso
    · cases cookie <;>
        simp +decide [h1, h2, List.count_append, List.count_cons, heartbeatMsg,
          cookieWarnMsg, noCatsMsg]
    · cases cookie <;>
        simp +decide [h1, h2, List.count_append, List.count_cons, heartbeatMsg,
          cookieWarnMsg, noCatsMsg]
  · cases cookie <;>
      (simp +decide [h1, List.count_append, List.count_cons, heartbeatMsg,
        cookieWarnMsg, noCatsMsg]
       rw [if_neg (by tauto)])

/-- C9 witness: the early-exit theorem applied at a concrete in-window
clock, a loaded state carrying one product and yesterday's heartbeat date,
and an empty category list. -/
theorem mainEarly_no_categories_witness :
    savedState (mainEarly st0 n0 true []) =
      some { st0 with last_heartbeat_date := expectedHeartbeatDate st0 n0 } ∧
    (sentMsgs (mainEarly st0 n0 true [])).map (fun msgs => msgs.count noCatsMsg) = some 1 :=
  mainEarly_no_categories st0 n0 true [] (by decide) (by decide)

/-- C9 counterexample: on the same early exit run at 08:10 of a new day,
the saved state differs from the loaded one (the heartbeat date advanced),
contradicting "state saved unchanged". -/
theorem mainEarly_state_changed_cex :
    savedState (mainEarly st0 n0 true []) =
      some ⟨true, [("1", ⟨"A", some 10, "C"⟩)], some "2026-10-12"⟩ ∧
    savedState (mainEarly st0 n0 true []) ≠ some st0 := by
  constructor
  · rfl
  · decide

theorem iter_products_stops_general :
    ∀ (N : Nat) (fetch : Nat → JValue) (fuel : Nat) (acc : List JValue) (base : Nat),
      stopsAtOffset fetch (100 * (base + N)) = true →
      (∀ k, k < N → stopsAtOffset fetch (100 * (base + k)) = false) →
      N < fuel →
      iter_products_fuel fetch fuel acc (100 * base) =
        some (acc ++
          ((List.range (N + 1)).map fun k => rowsAt fetch (100 * (base + k))).flatten) := by
  intro N
  induction N with
  | zero =>
      intro fetch fuel acc base hstop hbefore hfuel
      cases fuel with
      | zero => omega
      | succ f =>
          rw [iter_products_fuel]
          simp only [Nat.add_zero] at hstop
          rw [stopsAtOffset] at hstop
          by_cases he : (rowsAt fetch (100 * base)).isEmpty = true
          · have hnil : rowsAt fetch (100 * base) = [] := List.isEmpty_iff.mp he
            simp [he, hnil]
          · have hlt : (rowsAt fetch (100 * base)).length < 100 := by
              simp [he] at hstop
              exact hstop
            simp [he, hlt, show List.range 1 = [0] from rfl]
  | succ N ih =>
      intro fetch fuel acc base hstop hbefore hfuel
      cases fuel with
      | zero => omega
      | succ f =>
          have h0 := hbefore 0 (Nat.succ_pos N)
          simp only [Nat.add_zero] at h0
          rw [stopsAtOffset, Bool.or_eq_false_iff] at h0
          have he : (rowsAt fetch (100 * base)).isEmpty = false := h0.1
          have hge : ¬ (rowsAt fetch (100 * base)).length < 100 := by
            have := h0.2
            simpa using this
          rw [iter_products_fuel]
          simp only [he, Bool.false_eq_true, if_false, hge]
          have harith : 100 * base + 100 = 100 * (base + 1) := by ring
          rw [harith]
          have hstop' : stopsAtOffset fetch (100 * ((base + 1) + N)) = true := by
            have e : base + (N + 1) = (base + 1) + N := by omega
            rwa [e] at hstop
          have hbefore' : ∀ k, k < N → stopsAtOffset fetch (100 * ((base + 1) + k)) = false := by
            intro k hk
            have := hbefore (k + 1) (by omega)
            have e : base + (k + 1) = (base + 1) + k := by omega
            rwa [e] at this
          rw [ih fetch f (acc ++ rowsAt fetch (100 * base)) (base + 1) hstop' hbefore'
            (by omega)]
          congr 1
          rw [List.append_assoc]
          congr 1
          conv_rhs => rw [List.range_succ_eq_map]
          simp only [List.map_cons, List.map_map, List.flatten_cons, Nat.add_zero]
          congr 1
          apply congrArg List.flatten
          apply List.map_congr_left
          intro k _
          simp only [Function.comp_apply]
          congr 1
          omega

/-- C7 (amended): iter_products stops at the first page whose extraction is
empty or strictly shorter than the page size of 100 and returns the
accumulated entries, whenever such a page exists; for a collaborator that
always returns exactly a full page no such page exists and the loop never
terminates (the open robustness gap the spec notes). -/
theorem iter_products_stops (fetch : Nat → JValue) (N fuel : Nat)
    (hstop : stopsAtOffset fetch (100 * N) = true)
    (hbefore : ∀ k, k < N → stopsAtOffset fetch (100 * k) = false)
    (hfuel : N < fuel) :
    iter_products_fuel fetch fuel [] 0 =
      some (((List.range (N + 1)).map fun k => rowsAt fetch (100 * k)).flatten) := by
  have h := iter_products_stops_general N fetch fuel [] 0 (by simpa using hstop)
    (by simpa using hbefore) hfuel
  simpa using h

/-- C7 witness: the amended theorem applied to a collaborator whose first
page extraction is short. -/
theorem iter_products_stops_witness :
    iter_products_fuel oneShortFetch 1 [] 0 =
      some (((List.range 1).map fun k => rowsAt oneShortFetch (100 * k)).flatten) :=
  iter_products_stops oneShortFetch 0 1 (by decide)
    (fun k hk => absurd hk (Nat.not_lt_zero k)) Nat.one_pos

theorem rowsAt_constFull (offset : Nat) :
    rowsAt constFullFetch offset = List.replicate 100 pDict := by
  simp [rowsAt, constFullFetch, extract_rows, List.filter_replicate, pDict, isDict]

theorem iter_constFull_none :
    ∀ (fuel : Nat) (acc : List JValue) (offset : Nat),
      iter_products_fuel constFullFetch fuel acc offset = none := by
  intro fuel
  induction fuel with
  | zero => intro acc offset; rfl
  | succ f ih =>
      intro acc offset
      rw [iter_products_fuel, rowsAt_constFull]
      simp [ih]

/-- C7 counterexample: against the collaborator that always returns exactly
a full page with identical content the loop exit condition never holds, and
after a million iterations the loop is still running; the claim's
universal-termination reading fails on the source. -/
theorem iter_constFull_cex :
    (fun offset => stopsAtOffset constFullFetch offset) = (fun _ => false) ∧
    iter_products_fuel constFullFetch 1000000 [] 0 = none := by
  constructor
  · funext offset
    rw [stopsAtOffset, rowsAt_constFull]
    simp
  · exact iter_constFull_none 1000000 [] 0

theorem toNat_ofNat_small (n : Nat) (h : n < 55296) : (Char.ofNat n).toNat = n := by
  unfold Char.ofNat
  split
  · rfl
  · rename_i hv
    exact absurd (Or.inl h) hv

theorem isPySpace_pyLowerChar (c : Char) : isPySpace (pyLowerChar c) = isPySpace c := by
  rw [pyLowerChar]
  split_ifs with h1 h2 h3
  · have ht : (Char.ofNat (c.toNat + 32)).toNat = c.toNat + 32 :=
      toNat_ofNat_small _ (by omega)
    simp only [isPySpace, ht, decide_eq_decide]
    omega
  · have ht : (Char.ofNat (c.toNat + 32)).toNat = c.toNat + 32 :=
      toNat_ofNat_small _ (by omega)
    simp only [isPySpace, ht, decide_eq_decide]
    omega
  · have ht : (Char.ofNat 1105).toNat = 1105 := toNat_ofNat_small _ (by omega)
    simp only [isPySpace, ht, decide_eq_decide]
    omega
  · rfl

theorem lookup_mem {α β : Type} [BEq α] [LawfulBEq α] :
    ∀ {l : List (α × β)} {a : α} {b : β}, l.lookup a = some b → (a, b) ∈ l := by
  intro l
  induction l with
  | nil => intro a b h; simp [List.lookup] at h
  | cons p rest ih =>
      intro a b h
      rw [List.lookup] at h
      split at h
      · rename_i heq
        injection h with h
        subst h
        have ha : a = p.1 := eq_of_beq heq
        subst ha
        exact List.mem_cons_self p rest
      · right
        exact ih h

theorem isPySpace_confChar (c : Char) : isPySpace (confChar c) = isPySpace c := by
  rw [confChar]
  cases h : confTable.lookup c with
  | none => rfl
  | some v =>
      have hmem : (c, v) ∈ confTable := lookup_mem h
      have hall : ∀ p ∈ confTable, isPySpace p.1 = false ∧ isPySpace p.2 = false := by
        decide
      have hp := hall (c, v) hmem
      simp [hp.1, hp.2]

theorem stripChars_map (f : Char → Char) (hf : ∀ c, isPySpace (f c) = isPySpace c)
    (l : List Char) : stripChars (l.map f) = (stripChars l).map f := by
  have hcomp : (isPySpace ∘ f) = isPySpace := funext hf
  unfold stripChars
  rw [List.dropWhile_map, hcomp, ← List.map_reverse, List.dropWhile_map, hcomp,
    ← List.map_reverse]

theorem containsSub_iff (needle : List Char) :
    ∀ hay, containsSub hay needle = true ↔ needle <:+: hay := by
  intro hay
  induction hay with
  | nil =>
      rw [containsSub]
      simp [List.isPrefixOf_iff_prefix, List.infix_nil, List.prefix_nil]
  | cons c rest ih =>
      rw [containsSub]
      simp [List.isPrefixOf_iff_prefix, List.infix_cons_iff, ih]

theorem infix_dropWhile_of_infix {kw l : List Char} (hne : kw ≠ [])
    (hns : ∀ c ∈ kw, isPySpace c = false) (h : kw <:+: l) :
    kw <:+: l.dropWhile isPySpace := by
  obtain ⟨u, v, huv⟩ := h
  rw [← huv, List.append_assoc, List.dropWhile_append]
  split
  · cases kw with
    | nil => exact absurd rfl hne
    | cons k0 kw' =>
        rw [List.cons_append, List.dropWhile_cons_of_neg]
        · exact ⟨[], v, by simp⟩
        · simp [hns k0 (List.mem_cons_self k0 kw')]
  · exact ⟨List.dropWhile isPySpace u, v, by rw [List.append_assoc]⟩

theorem infix_stripChars_iff {kw l : List Char} (hne : kw ≠ [])
    (hns : ∀ c ∈ kw, isPySpace c = false) :
    kw <:+: stripChars l ↔ kw <:+: l := by
  constructor
  · intro h
    have hsuf : List.dropWhile isPySpace l <:+ l := List.dropWhile_suffix _
    have hpre : stripChars l <+: List.dropWhile isPySpace l := by
      rw [← List.reverse_suffix]
      unfold stripChars
      rw [List.reverse_reverse]
      exact List.dropWhile_suffix _
    exact (h.trans hpre.isInfix).trans hsuf.isInfix
  · intro h
    have h1 : kw <:+: List.dropWhile isPySpace l := infix_dropWhile_of_infix hne hns h
    have h2 : kw.reverse <:+: (List.dropWhile isPySpace l).reverse := by
      obtain ⟨s, t, hst⟩ := h1
      exact ⟨t.reverse, s.reverse, by rw [← hst]; simp⟩
    have h3 : kw.reverse <:+:
        List.dropWhile isPySpace ((List.dropWhile isPySpace l).reverse) := by
      refine infix_dropWhile_of_infix ?_ ?_ h2
      · simpa using hne
      · intro c hc
        exact hns c (List.mem_reverse.mp hc)
    obtain ⟨s, t, hst⟩ := h3
    refine ⟨t.reverse, s.reverse, ?_⟩
    unfold stripChars
    rw [← hst]
    simp

theorem containsSub_stripChars {kw : List Char} (l : List Char) (hne : kw ≠ [])
    (hns : ∀ c ∈ kw, isPySpace c = false) :
    containsSub (stripChars l) kw = containsSub l kw := by
  rw [Bool.eq_iff_iff, containsSub_iff, containsSub_iff]
  exact infix_stripChars_iff hne hns

/-- C6 (confirmed): find_sale_tobacco_categories returns exactly the input
categories, in input order, whose name contains both fixed keywords after
the confusables substitution and lower-casing; the strip the source applies
first cannot change the outcome because neither keyword contains
whitespace. -/
theorem find_sale_matches_claim :
    ∀ categories : List PyDict,
      find_sale_tobacco_categories categories
        = categories.filter fun c => textMatches (categoryName c) := by
  intro categories
  unfold find_sale_tobacco_categories textMatches categoryName
  apply List.filter_congr
  intro c _
  dsimp only
  have key : ∀ kw : List Char, kw ≠ [] → (∀ ch ∈ kw, isPySpace ch = false) →
      containsSub (pyLower (_normalize_confusables
        (pyStrip (pyStr ((List.lookup "name" c).getD (.str "")))))).data kw
        = containsSub (pyLower (_normalize_confusables
            (pyStr ((List.lookup "name" c).getD (.str ""))))).data kw := by
    intro kw hne hns
    have hdata : (pyLower (_normalize_confusables
        (pyStrip (pyStr ((List.lookup "name" c).getD (.str "")))))).data
        = stripChars ((pyLower (_normalize_confusables
            (pyStr ((List.lookup "name" c).getD (.str ""))))).data) := by
      show ((stripChars (pyStr ((List.lookup "name" c).getD (.str ""))).data).map
          confChar).map pyLowerChar
        = stripChars (((pyStr ((List.lookup "name" c).getD (.str ""))).data.map
            confChar).map pyLowerChar)
      rw [List.map_map, List.map_map, ← stripChars_map]
      intro ch
      simp only [Function.comp_apply]
      rw [isPySpace_pyLowerChar, isPySpace_confChar]
    rw [hdata, containsSub_stripChars _ hne hns]
  rw [key kw1.data (by decide) (by decide), key kw2.data (by decide) (by decide)]


theorem chunkAux_flatten (m : Nat) :
    ∀ (lines cur : List String) (curLen : Nat),
      (chunkAux m lines cur curLen).flatten = cur ++ lines := by
  intro lines
  induction lines with
  | nil =>
      intro cur curLen
      rw [chunkAux]
      by_cases hc : cur.isEmpty
      · simp [hc, List.isEmpty_iff.mp hc]
      · simp [hc]
  | cons line rest ih =>
      intro cur curLen
      rw [chunkAux]
      split
      · simp [List.flatten_cons, ih]
      · simp [ih]

theorem chunkAux_nonempty (m : Nat) :
    ∀ (lines cur : List String) (curLen : Nat) (c : List String),
      c ∈ chunkAux m lines cur curLen → c ≠ [] := by
  intro lines
  induction lines with
  | nil =>
      intro cur curLen c hc
      rw [chunkAux] at hc
      split at hc
      · simp at hc
      · rename_i h
        simp at hc
        subst hc
        simpa [List.isEmpty_iff] using h
  | cons line rest ih =>
      intro cur curLen c hc
      rw [chunkAux] at hc
      split at hc
      · rename_i hcond
        rcases List.mem_cons.mp hc with h | h
        · subst h; exact hcond.1
        · exact ih _ _ c h
      · exact ih _ _ c hc

theorem chunkAux_weight (m : Nat) :
    ∀ (lines cur : List String),
      (2 ≤ cur.length → weightL cur ≤ m) →
      ∀ c ∈ chunkAux m lines cur (weightL cur), 2 ≤ c.length → weightL c ≤ m := by
  intro lines
  induction lines with
  | nil =>
      intro cur hcur c hc hlen
      rw [chunkAux] at hc
      split at hc
      · simp at hc
      · simp at hc
        subst hc
        exact hcur hlen
  | cons line rest ih =>
      intro cur hcur c hc hlen
      rw [chunkAux] at hc
      split at hc
      · rename_i hcond
        rcases List.mem_cons.mp hc with h | h
        · subst h; exact hcur hlen
        · have hw : line.length + 1 = weightL [line] := by simp [weightL]
          rw [hw] at h
          refine ih [line] ?_ c h hlen
          intro h2
          simp at h2
      · rename_i hcond
        have hw : weightL cur + (line.length + 1) = weightL (cur ++ [line]) := by
          simp [weightL]
        rw [hw] at hc
        refine ih (cur ++ [line]) ?_ c hc hlen
        intro h2
        by_cases hnil : cur = []
        · subst hnil; simp at h2
        · rw [← hw]
          have : ¬ m < weightL cur + (line.length + 1) := by
            intro hlt
            exact hcond ⟨hnil, hlt⟩
          omega

theorem joinNL_length : ∀ c : List String, c ≠ [] → (joinNL c).length = weightL c - 1 := by
  intro c
  induction c with
  | nil => intro h; exact absurd rfl h
  | cons a rest ih =>
      intro _
      cases rest with
      | nil => simp [joinNL, weightL]
      | cons b t =>
          have he : joinNL (a :: b :: t) = a ++ "\n" ++ joinNL (b :: t) := rfl
          rw [he, String.length_append, String.length_append, ih (by simp)]
          have h1 : 1 ≤ weightL (b :: t) := by
            simp [weightL]
            omega
          have hn : ("\n" : String).length = 1 := rfl
          rw [hn]
          simp only [weightL, List.map_cons, List.sum_cons] at h1 ⊢
          omega

theorem joinNL_append : ∀ (a b : List String), a ≠ [] → b ≠ [] →
    joinNL (a ++ b) = joinNL a ++ "\n" ++ joinNL b := by
  intro a
  induction a with
  | nil => intro b h hb; exact absurd rfl h
  | cons x xs ih =>
      intro b _ hb
      cases xs with
      | nil =>
          cases b with
          | nil => exact absurd rfl hb
          | cons y t => simp [joinNL]
      | cons x2 t =>
          calc joinNL ((x :: x2 :: t) ++ b)
              = x ++ "\n" ++ joinNL ((x2 :: t) ++ b) := rfl
            _ = x ++ "\n" ++ (joinNL (x2 :: t) ++ "\n" ++ joinNL b) := by
                rw [ih b (by simp) hb]
            _ = (x ++ "\n" ++ joinNL (x2 :: t)) ++ "\n" ++ joinNL b := by
                simp [String.append_assoc]
            _ = joinNL (x :: x2 :: t) ++ "\n" ++ joinNL b := rfl

theorem joinNL_map_flatten : ∀ parts : List (List String), (∀ c ∈ parts, c ≠ []) →
    joinNL (parts.map joinNL) = joinNL parts.flatten := by
  intro parts
  induction parts with
  | nil => intro _; rfl
  | cons c t ih =>
      intro h
      cases t with
      | nil => simp [joinNL]
      | cons c2 t2 =>
          have hcne : c ≠ [] := h c (by simp)
          have hrest : ∀ d ∈ c2 :: t2, d ≠ [] := fun d hd => h d (by simp [hd])
          have hfl : (c2 :: t2).flatten ≠ [] := by
            have hc2 : c2 ≠ [] := hrest c2 (by simp)
            cases hc2e : c2 with
            | nil => exact absurd hc2e hc2
            | cons z zs => simp [List.flatten_cons, hc2e]
          calc joinNL (((c :: c2 :: t2)).map joinNL)
              = joinNL c ++ "\n" ++ joinNL ((c2 :: t2).map joinNL) := rfl
            _ = joinNL c ++ "\n" ++ joinNL (c2 :: t2).flatten := by rw [ih hrest]
            _ = joinNL (c ++ (c2 :: t2).flatten) :=
                (joinNL_append c _ hcne hfl).symm
            _ = joinNL (c :: c2 :: t2).flatten := by
                simp [List.flatten_cons]

/-- C10 (confirmed): the blocks of chunk_lines partition the input exactly:
the line groups flatten back to the input list in order, each block is the
newline-join of its group, and joining the blocks with newlines reproduces
the newline-join of the input lines. -/
theorem chunk_lines_partition :
    ∀ lines : List String,
      (chunkParts lines).flatten = lines ∧
      chunk_lines lines = (chunkParts lines).map joinNL ∧
      joinNL (chunk_lines lines) = joinNL lines := by
  intro lines
  have hflat : (chunkParts lines).flatten = lines := by
    simpa [chunkParts] using chunkAux_flatten 3500 lines [] 0
  refine ⟨hflat, rfl, ?_⟩
  have hne : ∀ c ∈ chunkParts lines, c ≠ [] := by
    intro c hc
    exact chunkAux_nonempty 3500 lines [] 0 c (by simpa [chunkParts] using hc)
  rw [chunk_lines, joinNL_map_flatten _ hne, hflat]

/-- C8 (amended): chunk_lines splits strictly at line boundaries under the
3500-character budget: every block is either within the budget or is a
single over-long input line standing alone; and when the newline-join of
the input exceeds the budget AND the input has at least two lines, more
than one block is produced (a single over-long line yields exactly one
oversized block). -/
theorem chunk_lines_budget :
    ∀ lines : List String,
      (∀ b ∈ chunk_lines lines, b.length ≤ 3500 ∨ b ∈ lines) ∧
      (2 ≤ lines.length → 3500 < (joinNL lines).length →
        2 ≤ (chunk_lines lines).length) := by
  intro lines
  have hflat : (chunkParts lines).flatten = lines := by
    simpa [chunkParts] using chunkAux_flatten 3500 lines [] 0
  constructor
  · intro b hb
    rw [chunk_lines] at hb
    obtain ⟨c, hc, hbc⟩ := List.mem_map.mp hb
    have hcne : c ≠ [] := chunkAux_nonempty 3500 lines [] 0 c hc
    cases c with
    | nil => exact absurd rfl hcne
    | cons x t =>
        cases t with
        | nil =>
            right
            have hx : x ∈ (chunkParts lines).flatten :=
              List.mem_flatten.mpr ⟨[x], hc, by simp⟩
            rw [hflat] at hx
            rw [← hbc]
            simpa [joinNL] using hx
        | cons y t2 =>
            left
            have hw : weightL (x :: y :: t2) ≤ 3500 :=
              chunkAux_weight 3500 lines [] (by intro h; simp at h)
                (x :: y :: t2) hc (by simp)
            have hlen := joinNL_length (x :: y :: t2) (by simp)
            rw [← hbc, hlen]
            omega
  · intro h2 hbig
    rcases hp : chunkParts lines with _ | ⟨c, t⟩
    · rw [hp] at hflat
      simp at hflat
      rw [hflat] at h2
      simp at h2
    · cases t with
      | nil =>
          rw [hp] at hflat
          simp at hflat
          have hcmem : c ∈ chunkAux 3500 lines [] 0 := by
            have : c ∈ chunkParts lines := by rw [hp]; simp
            simpa [chunkParts] using this
          have hclen : 2 ≤ c.length := by rw [hflat]; exact h2
          have hcw : weightL c ≤ 3500 :=
            chunkAux_weight 3500 lines [] (by intro h; simp at h) c hcmem hclen
          have hcne : c ≠ [] := chunkAux_nonempty 3500 lines [] 0 c hcmem
          have hjl := joinNL_length c hcne
          rw [← hflat, hjl] at hbig
          omega
      | cons c2 t2 =>
          rw [chunk_lines, hp]
          simp

/-- C8 witness: the amended theorem applied to two 2000-character lines,
whose newline-join has 4001 characters. -/
theorem chunk_lines_budget_witness :
    2 ≤ (chunk_lines [xline, yline]).length :=
  (chunk_lines_budget [xline, yline]).2 (by simp)
    (by
      have hx : xline.length = 2000 := by
        unfold xline
        rw [String.mk_length]
        exact List.length_replicate 2000 'x'
      have hy : yline.length = 2000 := by
        unfold yline
        rw [String.mk_length]
        exact List.length_replicate 2000 'y' 
      have hj : joinNL [xline, yline] = xline ++ "\n" ++ yline := rfl
      rw [hj, String.length_append, String.length_append, hx, hy,
        show ("\n" : String).length = 1 from rfl]
      omega)

/-- C8 counterexample: a single 3501-character input line makes the
newline-join exceed the budget, yet chunk_lines produces exactly one block,
contradicting "more than one block is produced". -/
theorem chunk_lines_single_line_cex :
    3500 < (joinNL [bigLine]).length ∧ chunk_lines [bigLine] = [bigLine] ∧
    (chunk_lines [bigLine]).length = 1 := by
  have hlen : bigLine.length = 3501 := by
    unfold bigLine
    rw [String.mk_length]
    exact List.length_replicate 3501 'a' 
  have hchunk : chunk_lines [bigLine] = [bigLine] := by
    rw [chunk_lines, chunkParts, chunkAux]
    simp [chunkAux, joinNL]
  refine ⟨?_, hchunk, by rw [hchunk]; rfl⟩
  have hj : joinNL [bigLine] = bigLine := rfl
  rw [hj, hlen]
  norm_num


theorem maxScore_attained : ∀ cands : List (List JValue),
    maxScoreOf cands = 0 ∨ ∃ c ∈ cands, prodScore c = maxScoreOf cands := by
  intro cands
  induction cands with
  | nil => left; rfl
  | cons c rest ih =>
      have hM : maxScoreOf (c :: rest) = max (prodScore c) (maxScoreOf rest) := by
        simp [maxScoreOf]
      by_cases hc : maxScoreOf rest ≤ prodScore c
      · right
        exact ⟨c, by simp, by rw [hM]; exact (Nat.max_eq_left hc).symm⟩
      · rcases ih with h0 | ⟨d, hd, hde⟩
        · rw [h0] at hc
          exact absurd (Nat.zero_le _) hc
        · right
          refine ⟨d, by simp [hd], ?_⟩
          rw [hM, hde]
          exact (Nat.max_eq_right (Nat.le_of_lt (Nat.lt_of_not_le hc))).symm

theorem candidatesOf_ne_nil : ∀ (fields : PyDict), ∀ c ∈ candidatesOf fields, c ≠ [] := by
  intro fields c hc
  obtain ⟨kv, hkv, hc2⟩ := List.mem_filterMap.mp hc
  split at hc2
  · split at hc2
    · injection hc2 with h
      subst h
      simp
    · simp at hc2
  · simp at hc2

theorem candFold_eq_bestFold : ∀ (fields : PyDict) (acc : List JValue × Nat),
    bestFold fields acc = candFold (candidatesOf fields) acc := by
  intro fields
  induction fields with
  | nil => intro acc; rfl
  | cons kv rest ih =>
      intro acc
      obtain ⟨k, v⟩ := kv
      obtain ⟨b, s⟩ := acc
      cases v with
      | arr l =>
          cases l with
          | nil => simpa [bestFold, candidatesOf] using ih (b, s)
          | cons x xs =>
              by_cases hx : isDict x = true
              · by_cases hs : s < prodScore (x :: xs)
                · simp [bestFold, candidatesOf, candFold, hx, hs, ih]
                · simp [bestFold, candidatesOf, candFold, hx, hs, ih]
              · simp only [Bool.not_eq_true] at hx
                simp [bestFold, candidatesOf, candFold, hx, ih]
      | null => simpa [bestFold, candidatesOf] using ih (b, s)
      | bool b2 => simpa [bestFold, candidatesOf] using ih (b, s)
      | num q => simpa [bestFold, candidatesOf] using ih (b, s)
      | str s2 => simpa [bestFold, candidatesOf] using ih (b, s)
      | obj f2 => simpa [bestFold, candidatesOf] using ih (b, s)

theorem candFold_spec : ∀ (cands : List (List JValue)) (b : List JValue) (s : Nat),
    (candFold cands (b, s)).2 = max s (maxScoreOf cands) ∧
    (candFold cands (b, s)).1 =
      (if maxScoreOf cands ≤ s then b
       else (cands.find? fun c => decide (maxScoreOf cands ≤ prodScore c)).getD b) := by
  intro cands
  induction cands with
  | nil =>
      intro b s
      refine ⟨by simp [candFold, maxScoreOf], ?_⟩
      simp [candFold, maxScoreOf]
  | cons c rest ih =>
      intro b s
      have hM : maxScoreOf (c :: rest) = max (prodScore c) (maxScoreOf rest) := by
        simp [maxScoreOf]
      by_cases hs : s < prodScore c
      · simp only [candFold, if_pos hs]
        obtain ⟨ih2, ih1⟩ := ih c (prodScore c)
        constructor
        · rw [ih2, hM]
          simp only [Nat.max_def]
          split_ifs <;> omega
        · rw [ih1, hM]
          have hnot : ¬ max (prodScore c) (maxScoreOf rest) ≤ s := by
            simp only [Nat.max_def]
            split_ifs <;> omega
          rw [if_neg hnot]
          by_cases hMc : maxScoreOf rest ≤ prodScore c
          · have hMax : max (prodScore c) (maxScoreOf rest) = prodScore c :=
              Nat.max_eq_left hMc
            rw [hMax]
            have hfind : List.find? (fun d => decide (prodScore c ≤ prodScore d))
                (c :: rest) = some c := by
              simp [List.find?_cons]
            rw [hfind, if_pos hMc]
            rfl
          · have hle : prodScore c ≤ maxScoreOf rest := by omega
            have hMax : max (prodScore c) (maxScoreOf rest) = maxScoreOf rest :=
              Nat.max_eq_right hle
            rw [hMax, if_neg hMc]
            have hfc : (decide (maxScoreOf rest ≤ prodScore c)) = false := by
              simp
              omega
            rw [List.find?_cons_of_neg _ (by simp [hfc])]
            have hpos : 0 < maxScoreOf rest := by omega
            obtain h0 | ⟨d, hd, hde⟩ := maxScore_attained rest
            · omega
            · have hex : (List.find? (fun d => decide (maxScoreOf rest ≤ prodScore d))
                  rest).isSome = true :=
                List.find?_isSome.mpr ⟨d, hd, by simp [hde]⟩
              obtain ⟨r, hr⟩ := Option.isSome_iff_exists.mp hex
              rw [hr]
              rfl
      · simp only [candFold, if_neg hs]
        obtain ⟨ih2, ih1⟩ := ih b s
        have hpc : prodScore c ≤ s := Nat.le_of_not_lt hs
        constructor
        · rw [ih2, hM]
          simp only [Nat.max_def]
          split_ifs <;> omega
        · rw [ih1, hM]
          by_cases hMs : max (prodScore c) (maxScoreOf rest) ≤ s
          · have h1 : maxScoreOf rest ≤ s :=
              le_trans (Nat.le_max_right (prodScore c) (maxScoreOf rest)) hMs
            rw [if_pos hMs, if_pos h1]
          · rw [if_neg hMs]
            have h3 : s < max (prodScore c) (maxScoreOf rest) := Nat.lt_of_not_le hMs
            have hMM : max (prodScore c) (maxScoreOf rest) = maxScoreOf rest := by
              simp only [Nat.max_def] at *
              split_ifs at * <;> omega
            have h2 : ¬ maxScoreOf rest ≤ s := by
              rw [hMM] at h3
              omega
            rw [if_neg h2, hMM]
            have hfc : (decide (maxScoreOf rest ≤ prodScore c)) = false := by
              simp
              rw [hMM] at h3
              omega
            rw [List.find?_cons_of_neg _ (by simp [hfc])]

/-- C3 (amended): extract_rows applies its rules in priority order: mapping
elements of a sequence; else the first conventional key holding a non-empty
sequence with a mapping first element; else the fallback scan, which
returns the elements of the highest-scoring candidate (first among ties)
only when that score is strictly positive, and an empty sequence when no
candidate scores positively. -/
theorem extract_rows_eq_amended : ∀ j : JValue, extract_rows j = extractRecordsAmended j := by
  intro j
  cases j with
  | arr xs => rfl
  | obj fields =>
      rw [extract_rows, extractRecordsAmended]
      cases hfc : firstConvHit convKeys fields with
      | some r => simp [hfc]
      | none =>
          simp only [hfc]
          rw [candFold_eq_bestFold]
          obtain ⟨h2, h1⟩ := candFold_spec (candidatesOf fields) [] 0
          rw [scanAmended]
          by_cases hM : maxScoreOf (candidatesOf fields) = 0
          · have hfst : (candFold (candidatesOf fields) ([], 0)).1 = [] := by
              rw [h1, if_pos (by omega)]
            simp [hfst, hM]
          · have hMle : ¬ maxScoreOf (candidatesOf fields) ≤ 0 := by omega
            rw [h1, if_neg hMle]
            obtain h0 | ⟨d, hd, hde⟩ := maxScore_attained (candidatesOf fields)
            · exact absurd h0 hM
            have hex : (List.find? (fun c =>
                decide (maxScoreOf (candidatesOf fields) ≤ prodScore c))
                (candidatesOf fields)).isSome = true :=
              List.find?_isSome.mpr ⟨d, hd, by simp [hde]⟩
            obtain ⟨r, hr⟩ := Option.isSome_iff_exists.mp hex
            rw [hr]
            have hrne : r ≠ [] :=
              candidatesOf_ne_nil fields r (List.mem_of_find?_eq_some hr)
            have hrE : r.isEmpty = false := by
              simpa [List.isEmpty_iff] using hrne
            simp [hM, hrE]
  | null => rfl
  | bool b => rfl
  | num q => rfl
  | str s => rfl

/-- C3 counterexample: on the mapping whose only (unconventional) key holds
a single dict with neither a name-like nor an id-like field, the source's
scan finds only a zero-score candidate and returns empty, while the claim's
"highest-scoring candidate, or empty if no candidate exists" returns that
candidate's elements; the two differ. -/
theorem extract_rows_zero_score_cex :
    extract_rows jweird = [] ∧
    extractRecordsClaim jweird = [.obj [("x", .num 1)]] ∧
    extract_rows jweird ≠ extractRecordsClaim jweird := by
  refine ⟨rfl, rfl, ?_⟩
  intro h
  rw [show extract_rows jweird = [] from rfl,
    show extractRecordsClaim jweird = [.obj [("x", .num 1)]] from rfl] at h
  simp at h


theorem strLeB_total : ∀ a b : List Char, strLeB a b = true ∨ strLeB b a = true := by
  intro a
  induction a with
  | nil => intro b; left; rfl
  | cons c cs ih =>
      intro b
      cases b with
      | nil => right; rfl
      | cons d ds =>
          by_cases h1 : c.toNat < d.toNat
          · left; simp [strLeB, h1]
          · by_cases h2 : d.toNat < c.toNat
            · right; simp [strLeB, h2]
            · rcases ih ds with h | h
              · left; simp [strLeB, h1, h2, h]
              · right; simp [strLeB, h1, h2, h]

theorem strLeB_trans : ∀ a b c : List Char,
    strLeB a b = true → strLeB b c = true → strLeB a c = true := by
  intro a
  induction a with
  | nil => intro b c h1 h2; rfl
  | cons x xs ih =>
      intro b c h1 h2
      cases b with
      | nil => simp [strLeB] at h1
      | cons y ys =>
          cases c with
          | nil => simp [strLeB] at h2
          | cons z zs =>
              by_cases hxy : x.toNat < y.toNat <;> by_cases hyz : y.toNat < z.toNat
              · simp [strLeB, show x.toNat < z.toNat by omega]
              · by_cases hzy : z.toNat < y.toNat
                · rw [strLeB] at h2; simp [hyz, hzy] at h2
                · simp [strLeB, show x.toNat < z.toNat by omega]
              · by_cases hyx : y.toNat < x.toNat
                · rw [strLeB] at h1; simp [hxy, hyx] at h1
                · simp [strLeB, show x.toNat < z.toNat by omega]
              · by_cases hyx : y.toNat < x.toNat
                · rw [strLeB] at h1; simp [hxy, hyx] at h1
                · by_cases hzy : z.toNat < y.toNat
                  · rw [strLeB] at h2; simp [hyz, hzy] at h2
                  · have h1' : strLeB xs ys = true := by
                      rw [strLeB] at h1; simpa [hxy, hyx] using h1
                    have h2' : strLeB ys zs = true := by
                      rw [strLeB] at h2; simpa [hyz, hzy] using h2
                    rw [strLeB]
                    simp [show ¬ x.toNat < z.toNat by omega,
                      show ¬ z.toNat < x.toNat by omega]
                    exact ih ys zs h1' h2'

theorem recLe_trans : ∀ a b c : SnapRec,
    recLe a b = true → recLe b c = true → recLe a c = true := by
  intro a b c h1 h2
  exact strLeB_trans _ _ _ h1 h2

theorem recLe_total : ∀ a b : SnapRec, (recLe a b || recLe b a) = true := by
  intro a b
  rcases strLeB_total (nameKey a.name) (nameKey b.name) with h | h <;>
    simp [recLe, h]

theorem pairLe_trans : ∀ a b c : SnapRec × SnapRec,
    pairLe a b = true → pairLe b c = true → pairLe a c = true := by
  intro a b c h1 h2
  exact strLeB_trans _ _ _ h1 h2

theorem pairLe_total : ∀ a b : SnapRec × SnapRec, (pairLe a b || pairLe b a) = true := by
  intro a b
  rcases strLeB_total (nameKey a.2.name) (nameKey b.2.name) with h | h <;>
    simp [pairLe, h]

theorem diffAdded_eq : ∀ prev current : Snapshot,
    diffAdded prev current
      = (current.filter fun pc => (List.lookup pc.1 prev).isNone).map Prod.snd := by
  intro prev current
  induction current with
  | nil => rfl
  | cons pc rest ih =>
      cases h : List.lookup pc.1 prev with
      | none =>
          simp [diffAdded, List.filterMap_cons, List.filter_cons, h] at ih ⊢
          exact ih
      | some old =>
          simp [diffAdded, List.filterMap_cons, List.filter_cons, h] at ih ⊢
          exact ih

theorem mem_diffAdded : ∀ (prev current : Snapshot) (r : SnapRec),
    r ∈ diffAdded prev current ↔
      ∃ pid, (pid, r) ∈ current ∧ List.lookup pid prev = none := by
  intro prev current r
  simp only [diffAdded, List.mem_filterMap]
  constructor
  · rintro ⟨pc, hmem, hf⟩
    by_cases h : (List.lookup pc.1 prev).isSome
    · rw [if_pos h] at hf
      exact absurd hf (by simp)
    · rw [if_neg h] at hf
      injection hf with hf
      refine ⟨pc.1, ?_, Option.not_isSome_iff_eq_none.mp h⟩
      rw [← hf]
      exact hmem
  · rintro ⟨pid, hmem, hlook⟩
    exact ⟨(pid, r), hmem, by simp [hlook]⟩

theorem mem_diffChanged : ∀ (prev current : Snapshot) (o c : SnapRec),
    (o, c) ∈ diffChanged prev current ↔
      ∃ pid, (pid, c) ∈ current ∧ List.lookup pid prev = some o ∧
        o.price_rub ≠ c.price_rub := by
  intro prev current o c
  simp only [diffChanged, List.mem_filterMap]
  constructor
  · rintro ⟨pc, hmem, hf⟩
    cases hl : List.lookup pc.1 prev with
    | none => rw [hl] at hf; simp at hf
    | some old =>
        rw [hl] at hf
        by_cases hne : old.price_rub ≠ pc.2.price_rub
        · simp only [hne, if_true, ne_eq, not_false_eq_true, Option.some.injEq] at hf
          have ho : old = o := congrArg Prod.fst hf
          have hc : pc.2 = c := congrArg Prod.snd hf
          subst ho
          refine ⟨pc.1, ?_, hl, by rwa [hc] at hne⟩
          rw [← hc]
          exact hmem
        · simp [hne] at hf
  · rintro ⟨pid, hmem, hlook, hne⟩
    refine ⟨(pid, c), hmem, ?_⟩
    simp [hlook, hne]

theorem diffMain_perm : ∀ prev current : Snapshot,
    (diffMain prev current).1.Perm (diffAdded prev current) ∧
    (diffMain prev current).2.Perm (diffChanged prev current) := by
  intro prev current
  by_cases hg : (diffAdded prev current).isEmpty ∧ (diffChanged prev current).isEmpty
  · have hd : diffMain prev current = (diffAdded prev current, diffChanged prev current) := by
      simp only [diffMain]
      rw [if_pos hg]
    rw [hd]
    exact ⟨List.Perm.refl _, List.Perm.refl _⟩
  · have hd : diffMain prev current
        = ((diffAdded prev current).mergeSort recLe,
           (diffChanged prev current).mergeSort pairLe) := by
      simp only [diffMain]
      rw [if_neg hg]
    rw [hd]
    exact ⟨List.mergeSort_perm _ _, List.mergeSort_perm _ _⟩

/-- C1 (confirmed): the Snapshot Differ of main reports as added exactly
the current records of ids absent from the previous snapshot, as changed
exactly the (previous, current) pairs of ids present in both whose Option
prices differ (absent-to-present transitions count as change, absent on
both sides as equal), never mentions ids present only in the previous
snapshot, and sorts both lists case-insensitively by name, changed by the
new record's name. -/
theorem diffMain_spec : ∀ prev current : Snapshot,
    (diffMain prev current).1.Perm
      ((current.filter fun pc => (List.lookup pc.1 prev).isNone).map Prod.snd) ∧
    (diffMain prev current).2.Perm (diffChanged prev current) ∧
    (∀ r : SnapRec, r ∈ (diffMain prev current).1 ↔
      ∃ pid, (pid, r) ∈ current ∧ List.lookup pid prev = none) ∧
    (∀ o c : SnapRec, (o, c) ∈ (diffMain prev current).2 ↔
      ∃ pid, (pid, c) ∈ current ∧ List.lookup pid prev = some o ∧
        o.price_rub ≠ c.price_rub) ∧
    (diffMain prev current).1.Pairwise (fun a b => recLe a b = true) ∧
    (diffMain prev current).2.Pairwise (fun a b => pairLe a b = true) := by
  intro prev current
  obtain ⟨hp1, hp2⟩ := diffMain_perm prev current
  refine ⟨?_, hp2, ?_, ?_, ?_, ?_⟩
  · rw [← diffAdded_eq]
    exact hp1
  · intro r
    rw [hp1.mem_iff, mem_diffAdded]
  · intro o c
    rw [hp2.mem_iff, mem_diffChanged]
  · by_cases hg : (diffAdded prev current).isEmpty ∧ (diffChanged prev current).isEmpty
    · have hd : (diffMain prev current).1 = diffAdded prev current := by
        simp only [diffMain]
        rw [if_pos hg]
      rw [hd, List.isEmpty_iff.mp hg.1]
      exact List.Pairwise.nil
    · have hd : (diffMain prev current).1 = (diffAdded prev current).mergeSort recLe := by
        simp only [diffMain]
        rw [if_neg hg]
      rw [hd]
      exact List.sorted_mergeSort recLe_trans recLe_total _
  · by_cases hg : (diffAdded prev current).isEmpty ∧ (diffChanged prev current).isEmpty
    · have hd : (diffMain prev current).2 = diffChanged prev current := by
        simp only [diffMain]
        rw [if_pos hg]
      rw [hd, List.isEmpty_iff.mp hg.2]
      exact List.Pairwise.nil
    · have hd : (diffMain prev current).2 = (diffChanged prev current).mergeSort pairLe := by
        simp only [diffMain]
        rw [if_neg hg]
      rw [hd]
      exact List.sorted_mergeSort pairLe_trans pairLe_total _

/-- C1 witness: the differ theorem applied to a concrete previous snapshot
with one product and a current snapshot with a price change and a new
product; the new product is reported as added. -/
theorem diffMain_spec_witness :
    (⟨"B", none, "C"⟩ : SnapRec) ∈
      (diffMain [("1", ⟨"A", some 10, "C"⟩)]
        [("1", ⟨"A", some 12, "C"⟩), ("2", ⟨"B", none, "C"⟩)]).1 :=
  ((diffMain_spec [("1", ⟨"A", some 10, "C"⟩)]
      [("1", ⟨"A", some 12, "C"⟩), ("2", ⟨"B", none, "C"⟩)]).2.2.1
    ⟨"B", none, "C"⟩).mpr ⟨"2", by decide, by decide⟩

end Moysklad
